import Mathlib

/-!
Verification of `src/rm_block.py`, a one-shot script that removes a block of
text from a file: it finds all occurrences of a fixed marker substring,
takes the last one, deletes the span from the start of that marker's line
through the first newline after the next `</Section>` occurrence, and
writes the result back.

The file content is modelled as a `List Char` (Python strings are sequences
of code points; the script reads and writes the same UTF-8 encoding, so
byte-level identity coincides with code-point-level identity).  Python's
`str.find`, `str.rfind` and the scanning `while` loop are embedded as
fuel-based total functions whose fuel provably suffices.
-/

namespace RmBlock

/-- The marker substring, `sub` in the source (line 4). -/
def sub : List Char := "id=\"kpi-pocket-coverage\"".data

/-- The closing-tag substring searched for at line 17 of the source. -/
def closingTag : List Char := "</Section>".data

/-- `occ pat s i` holds when `pat` occurs in `s` starting at position `i`,
i.e. Python's `s[i:i+len(pat)] == pat`. -/
def occ (pat s : List Char) (i : Nat) : Bool :=
  (s.drop i).take pat.length == pat

/-- Worker for Python's `str.find`: try positions `i, i+1, ...`, with fuel. -/
def findAux (pat s : List Char) : Nat → Nat → Option Nat
  | _, 0 => none
  | i, fuel + 1 => if occ pat s i then some i else findAux pat s (i + 1) fuel

/-- Python's `text.find(pat, start)` (line 8, 17, 20 of the source), returning
`none` for `-1`: the least position `≥ start` at which `pat` occurs. -/
def pyFind (pat s : List Char) (start : Nat) : Option Nat :=
  findAux pat s start (s.length + 1 - start)

/-- Python's `text.rfind('\n', 0, stop)` (line 23 of the source), returning
`none` for `-1`: the greatest position `< stop` holding a newline. -/
def rfindNl (s : List Char) : Nat → Option Nat
  | 0 => none
  | stop + 1 => if s[stop]? = some '\n' then some stop else rfindNl s stop

/-- The scanning `while True` loop (lines 6-12 of the source), with fuel:
collect occurrence positions, restarting the search at `i + 1` after each
found position `i`. -/
def scanAux (pat s : List Char) : Nat → Nat → List Nat
  | 0, _ => []
  | fuel + 1, start =>
    match pyFind pat s start with
    | none => []
    | some i => i :: scanAux pat s fuel (i + 1)

/-- The list `indices` computed by the scanning loop, starting at 0 with
enough fuel (`s.length + 1` iterations always suffice). -/
def scanIndices (pat s : List Char) : List Nat :=
  scanAux pat s (s.length + 1) 0

/-- Outcome of a run: the two `SystemExit` aborts (lines 15 and 19), or
success carrying the new text and the two printed offsets (lines 24-26). -/
inductive RunResult where
  | nothingToRemove : RunResult
  | endNotFound : RunResult
  | ok : List Char → Nat → Nat → RunResult
  deriving DecidableEq

/-- The whole observable run: the list of indices printed at line 13
(printed before any abort or write), and the result. -/
structure RunOutput where
  stdoutIndices : List Nat
  result : RunResult
  deriving DecidableEq

/-- The script body (lines 5-26 of `src/rm_block.py`). -/
def run (text : List Char) : RunOutput :=
  let indices := scanIndices sub text
  if indices.length ≤ 1 then
    ⟨indices, RunResult.nothingToRemove⟩
  else
    let remove_start := indices.getLastD 0
    match pyFind closingTag text remove_start with
    | none => ⟨indices, RunResult.endNotFound⟩
    | some c =>
      let e := (pyFind ['\n'] text c).getD text.length
      let line_start := ((rfindNl text remove_start).map (fun i => i + 1)).getD 0
      ⟨indices, RunResult.ok (text.take line_start ++ text.drop e) line_start e⟩

/-- The content of the file after the run: `write_text` happens only on the
success path (line 25); both aborts leave the file untouched. -/
def finalContent (text : List Char) : List Char :=
  match (run text).result with
  | RunResult.ok newText _ _ => newText
  | _ => text

/-! ### Specification-side predicates (stated from the spec's words) -/

/-- Number of positions at which `pat` occurs in `s` (for nonempty `pat`
every occurrence starts below `s.length`). -/
def numOccs (pat s : List Char) : Nat :=
  (List.range s.length).countP (fun i => occ pat s i)

/-- `p` is the last occurrence of `pat` in `s`: an occurrence, with no
occurrence strictly after it. -/
def lastOccAt (pat s : List Char) (p : Nat) : Prop :=
  occ pat s p = true ∧ ∀ j, j < s.length → p < j → occ pat s j = false

instance (pat s : List Char) (p : Nat) : Decidable (lastOccAt pat s p) := by
  unfold lastOccAt
  infer_instance

/-- `ls` is the start of the line containing position `p`: `ls ≤ p`, `ls` is
either 0 or just after a newline, and no newline lies in `[ls, p)`. -/
def lineStartOfAt (s : List Char) (p ls : Nat) : Prop :=
  ls ≤ p ∧ (ls = 0 ∨ s[ls - 1]? = some '\n') ∧
    ∀ k, k < p → ls ≤ k → s[k]? ≠ some '\n'

/-- `c` is the first occurrence of `pat` in `s` at or after `start`. -/
def firstAtFrom (pat s : List Char) (start c : Nat) : Prop :=
  start ≤ c ∧ occ pat s c = true ∧
    ∀ j, j < c → start ≤ j → occ pat s j = false

instance (pat s : List Char) (start c : Nat) :
    Decidable (firstAtFrom pat s start c) := by
  unfold firstAtFrom
  infer_instance

/-- `e` is the end of the line containing position `c`: either the first
newline at or after `c`, or the length of `s` when no such newline exists. -/
def lineEndFrom (s : List Char) (c e : Nat) : Prop :=
  (c ≤ e ∧ s[e]? = some '\n' ∧ ∀ k, k < e → c ≤ k → s[k]? ≠ some '\n')
  ∨ (e = s.length ∧ ∀ k, k < s.length → c ≤ k → s[k]? ≠ some '\n')

/-! ### Sample inputs used by the witnesses -/

/-- Two markers separated by a newline, the second followed by a closing tag
(and no trailing newline). -/
def w1 : List Char := sub ++ '\n' :: (sub ++ closingTag)

/-- Two adjacent markers with no closing tag anywhere. -/
def t0 : List Char := sub ++ sub

/-- A content without any marker occurrence. -/
def t2 : List Char := "hello".data

/-- The content written back by a successful run on `w1`: its first line. -/
def w1out : List Char := sub ++ ['\n']

/-! ### Basic facts about `occ` -/

theorem occ_iff {pat s : List Char} {i : Nat} :
    occ pat s i = true ↔ (s.drop i).take pat.length = pat := by
  simp [occ]

theorem occ_length_le {pat s : List Char} {i : Nat} (hp : pat ≠ [])
    (h : occ pat s i = true) : i + pat.length ≤ s.length := by
  rw [occ_iff] at h
  have hlen := congrArg List.length h
  have hpos : 0 < pat.length := List.length_pos.mpr hp
  simp [List.length_take, List.length_drop] at hlen
  omega

theorem occ_lt_length {pat s : List Char} {i : Nat} (hp : pat ≠ [])
    (h : occ pat s i = true) : i < s.length := by
  have := occ_length_le hp h
  have hpos : 0 < pat.length := List.length_pos.mpr hp
  omega

theorem occ_getElem? {pat s : List Char} {i : Nat} (h : occ pat s i = true)
    {k : Nat} (hk : k < pat.length) : s[i + k]? = pat[k]? := by
  rw [occ_iff] at h
  have := congrArg (fun l => l[k]?) h
  simpa [List.getElem?_take, hk, List.getElem?_drop] using this

theorem take_one_eq {α : Type} {l : List α} {c : α} :
    l.take 1 = [c] ↔ l[0]? = some c := by
  cases l <;> simp

theorem occ_singleton {c : Char} {s : List Char} {i : Nat} :
    occ [c] s i = true ↔ s[i]? = some c := by
  rw [occ_iff]
  show (s.drop i).take 1 = [c] ↔ _
  rw [take_one_eq, List.getElem?_drop]
  simp

/-! ### Facts about `findAux` and `pyFind` -/

theorem findAux_some {pat s : List Char} :
    ∀ {fuel i j : Nat}, findAux pat s i fuel = some j →
      i ≤ j ∧ j < i + fuel ∧ occ pat s j = true ∧
        ∀ k, i ≤ k → k < j → occ pat s k = false := by
  intro fuel
  induction fuel with
  | zero => intro i j h; simp [findAux] at h
  | succ n ih =>
    intro i j h
    rw [findAux] at h
    by_cases hi : occ pat s i = true
    · simp [hi] at h
      subst h
      exact ⟨Nat.le_refl _, by omega, hi, fun k hk1 hk2 => absurd hk1 (by omega)⟩
    · simp [hi] at h
      obtain ⟨h1, h2, h3, h4⟩ := ih h
      refine ⟨by omega, by omega, h3, fun k hk1 hk2 => ?_⟩
      rcases Nat.eq_or_lt_of_le hk1 with rfl | hk
      · exact Bool.eq_false_iff.mpr hi
      · exact h4 k hk hk2

theorem findAux_none {pat s : List Char} :
    ∀ {fuel i : Nat}, findAux pat s i fuel = none →
      ∀ k, i ≤ k → k < i + fuel → occ pat s k = false := by
  intro fuel
  induction fuel with
  | zero => intro i _ k hk1 hk2; omega
  | succ n ih =>
    intro i h k hk1 hk2
    rw [findAux] at h
    by_cases hi : occ pat s i = true
    · simp [hi] at h
    · simp [hi] at h
      rcases Nat.eq_or_lt_of_le hk1 with rfl | hk
      · exact Bool.eq_false_iff.mpr hi
      · exact ih h k hk (by omega)

theorem pyFind_eq_some {pat s : List Char} {start j : Nat}
    (h : pyFind pat s start = some j) :
    firstAtFrom pat s start j ∧ j ≤ s.length := by
  obtain ⟨h1, h2, h3, h4⟩ := findAux_some h
  have hb : j ≤ s.length := by omega
  exact ⟨⟨h1, h3, fun k hk1 hk2 => h4 k hk2 hk1⟩, hb⟩

theorem pyFind_eq_none {pat s : List Char} (hp : pat ≠ []) {start : Nat}
    (h : pyFind pat s start = none) :
    ∀ k, start ≤ k → occ pat s k = false := by
  intro k hk
  by_cases ho : occ pat s k = true
  · exfalso
    have hkl : k < s.length := occ_lt_length hp ho
    have := findAux_none h k hk (by omega)
    rw [this] at ho
    exact Bool.false_ne_true ho
  · exact Bool.eq_false_iff.mpr ho

theorem pyFind_some_of_occ {pat s : List Char} (hp : pat ≠ []) {start k : Nat}
    (hk : occ pat s k = true) (hks : start ≤ k) :
    ∃ j, pyFind pat s start = some j ∧ j ≤ k := by
  cases h : pyFind pat s start with
  | none =>
    have := pyFind_eq_none hp h k hks
    rw [this] at hk
    exact absurd hk Bool.false_ne_true
  | some j =>
    refine ⟨j, rfl, ?_⟩
    by_contra hlt
    have ⟨⟨_, _, hmin⟩, _⟩ := pyFind_eq_some h
    have := hmin k (by omega) hks
    rw [this] at hk
    exact Bool.false_ne_true hk

/-! ### Facts about `rfindNl` -/

theorem rfindNl_eq_some {s : List Char} :
    ∀ {stop i : Nat}, rfindNl s stop = some i →
      i < stop ∧ s[i]? = some '\n' ∧
        ∀ k, i < k → k < stop → s[k]? ≠ some '\n' := by
  intro stop
  induction stop with
  | zero => intro i h; simp [rfindNl] at h
  | succ n ih =>
    intro i h
    rw [rfindNl] at h
    by_cases hn : s[n]? = some '\n'
    · simp [hn] at h
      subst h
      exact ⟨by omega, hn, fun k hk1 hk2 => by omega⟩
    · simp [hn] at h
      obtain ⟨h1, h2, h3⟩ := ih h
      refine ⟨by omega, h2, fun k hk1 hk2 => ?_⟩
      rcases Nat.lt_succ_iff_lt_or_eq.mp hk2 with hk | rfl
      · exact h3 k hk1 hk
      · exact hn

theorem rfindNl_eq_none {s : List Char} :
    ∀ {stop : Nat}, rfindNl s stop = none →
      ∀ k, k < stop → s[k]? ≠ some '\n' := by
  intro stop
  induction stop with
  | zero => intro _ k hk; omega
  | succ n ih =>
    intro h k hk
    rw [rfindNl] at h
    by_cases hn : s[n]? = some '\n'
    · simp [hn] at h
    · simp [hn] at h
      rcases Nat.lt_succ_iff_lt_or_eq.mp hk with hk' | rfl
      · exact ih h k hk'
      · exact hn

/-- The `line_start` computed at line 23 of the source is the start of the
line containing position `p`. -/
theorem lineStart_spec (s : List Char) (p : Nat) :
    lineStartOfAt s p (((rfindNl s p).map (fun i => i + 1)).getD 0) := by
  cases h : rfindNl s p with
  | none =>
    refine ⟨Nat.zero_le _, Or.inl rfl, fun k hk _ => ?_⟩
    exact rfindNl_eq_none h k hk
  | some i =>
    obtain ⟨h1, h2, h3⟩ := rfindNl_eq_some h
    refine ⟨by simpa using h1, Or.inr (by simpa using h2), fun k hk1 hk2 => ?_⟩
    simp only [Option.map_some', Option.getD_some] at hk2
    exact h3 k (by omega) hk1

/-! ### Facts about the scanning loop -/

theorem pyFind_none_of_big {pat s : List Char} {start : Nat}
    (h : s.length + 1 ≤ start) : pyFind pat s start = none := by
  unfold pyFind
  have : s.length + 1 - start = 0 := by omega
  rw [this]
  rfl

/-- Any two sufficient fuels give the scanning loop the same result: the
loop's result is fuel-independent once the fuel covers the remaining search
positions, i.e. the loop terminates. -/
theorem scanAux_fuel_congr {pat s : List Char} :
    ∀ {f₁ start f₂ : Nat}, s.length + 1 ≤ f₁ + start →
      s.length + 1 ≤ f₂ + start →
      scanAux pat s f₁ start = scanAux pat s f₂ start := by
  intro f₁
  induction f₁ with
  | zero =>
    intro start f₂ h1 _
    have hnone : pyFind pat s start = none := pyFind_none_of_big (by omega)
    cases f₂ with
    | zero => rfl
    | succ m => rw [scanAux, scanAux, hnone]
  | succ n ih =>
    intro start f₂ h1 h2
    cases f₂ with
    | zero =>
      have hnone : pyFind pat s start = none := pyFind_none_of_big (by omega)
      rw [scanAux, scanAux, hnone]
    | succ m =>
      rw [scanAux, scanAux]
      cases hf : pyFind pat s start with
      | none => rfl
      | some i =>
        obtain ⟨⟨hsi, _, _⟩, hil⟩ := pyFind_eq_some hf
        dsimp only
        exact congrArg (i :: ·) (ih (by omega) (by omega))

/-- Membership in the scan output characterizes occurrences at or after the
current search start. -/
theorem scanAux_mem {pat s : List Char} (hp : pat ≠ []) :
    ∀ {fuel start : Nat}, s.length + 1 ≤ fuel + start →
      ∀ {i : Nat}, (i ∈ scanAux pat s fuel start ↔
        start ≤ i ∧ occ pat s i = true) := by
  intro fuel
  induction fuel with
  | zero =>
    intro start h i
    rw [scanAux]
    simp only [List.not_mem_nil, false_iff, not_and]
    intro hsi ho
    have := occ_lt_length hp ho
    omega
  | succ n ih =>
    intro start h i
    rw [scanAux]
    cases hf : pyFind pat s start with
    | none =>
      simp only [List.not_mem_nil, false_iff, not_and]
      intro hsi ho
      have := pyFind_eq_none hp hf i hsi
      rw [this] at ho
      exact Bool.false_ne_true ho
    | some j =>
      obtain ⟨⟨hsj, hoj, hmin⟩, hjl⟩ := pyFind_eq_some hf
      have hfuel : s.length + 1 ≤ n + (j + 1) := by omega
      constructor
      · intro hmem
        rcases List.mem_cons.mp hmem with rfl | hmem
        · exact ⟨hsj, hoj⟩
        · obtain ⟨h1, h2⟩ := (ih hfuel).mp hmem
          exact ⟨by omega, h2⟩
      · rintro ⟨hsi, hoi⟩
        by_cases hij : i = j
        · exact hij ▸ List.mem_cons_self _ _
        · have hij' : j < i := by
            by_contra hle
            have := hmin i (by omega) hsi
            rw [this] at hoi
            exact Bool.false_ne_true hoi
          exact List.mem_cons_of_mem _ ((ih hfuel).mpr ⟨by omega, hoi⟩)

/-- The scan output is strictly increasing, and bounded below by the search
start. -/
theorem scanAux_pairwise {pat s : List Char} :
    ∀ (fuel start : Nat), (scanAux pat s fuel start).Pairwise (· < ·) ∧
      ∀ x ∈ scanAux pat s fuel start, start ≤ x := by
  intro fuel
  induction fuel with
  | zero =>
    intro start
    rw [scanAux]
    exact ⟨List.Pairwise.nil, by simp⟩
  | succ n ih =>
    intro start
    rw [scanAux]
    cases hf : pyFind pat s start with
    | none => exact ⟨List.Pairwise.nil, by simp⟩
    | some j =>
      obtain ⟨⟨hsj, _, _⟩, _⟩ := pyFind_eq_some hf
      obtain ⟨hpw, hge⟩ := ih (j + 1)
      refine ⟨List.Pairwise.cons (fun x hx => ?_) hpw, ?_⟩
      · have := hge x hx
        omega
      · intro x hx
        rcases List.mem_cons.mp hx with rfl | hx
        · exact hsj
        · have := hge x hx
          omega

theorem scanIndices_mem {pat s : List Char} (hp : pat ≠ []) {i : Nat} :
    i ∈ scanIndices pat s ↔ occ pat s i = true := by
  unfold scanIndices
  rw [scanAux_mem hp (by omega)]
  simp

theorem scanIndices_pairwise (pat s : List Char) :
    (scanIndices pat s).Pairwise (· < ·) :=
  (scanAux_pairwise (s.length + 1) 0).1

/-- In a strictly increasing list, every element is at most `getLastD`. -/
theorem pairwise_le_getLastD :
    ∀ {l : List Nat}, l.Pairwise (· < ·) → ∀ (d : Nat), ∀ x ∈ l, x ≤ l.getLastD d := by
  intro l
  induction l with
  | nil => intro _ d x hx; simp at hx
  | cons a t ih =>
    intro hpw d x hx
    rw [List.getLastD_cons]
    obtain ⟨ha, hpt⟩ := List.pairwise_cons.mp hpw
    rcases List.mem_cons.mp hx with rfl | hx
    · cases t with
      | nil => simp [List.getLastD]
      | cons b t' =>
        have hb : x < b := ha b (List.mem_cons_self _ _)
        have := ih hpt x b (List.mem_cons_self _ _)
        omega
    · exact ih hpt a x hx

theorem getLastD_mem {l : List Nat} (h : l ≠ []) (d : Nat) : l.getLastD d ∈ l := by
  cases l with
  | nil => exact absurd rfl h
  | cons a t =>
    rw [List.getLastD_cons]
    exact List.getLastD_mem_cons t a

/-- The last element of the scan output is the last marker occurrence. -/
theorem scanIndices_getLastD_lastOcc {pat s : List Char} (hp : pat ≠ [])
    (hne : scanIndices pat s ≠ []) :
    lastOccAt pat s ((scanIndices pat s).getLastD 0) := by
  have hmem := getLastD_mem hne 0
  have hocc := (scanIndices_mem hp).mp hmem
  refine ⟨hocc, fun j _ hj => ?_⟩
  by_cases hoj : occ pat s j = true
  · exfalso
    have hjmem := (scanIndices_mem hp).mpr hoj
    have := pairwise_le_getLastD (scanIndices_pairwise pat s) 0 j hjmem
    omega
  · exact Bool.eq_false_iff.mpr hoj

/-- The last occurrence position is unique. -/
theorem lastOccAt_unique {pat s : List Char} (hp : pat ≠ []) {p q : Nat}
    (hq : lastOccAt pat s p) (hq' : lastOccAt pat s q) : p = q := by
  by_contra hne
  rcases Nat.lt_or_ge p q with h | h
  · have hf := hq.2 q (occ_lt_length hp hq'.1) h
    have ht := hq'.1
    rw [hf] at ht
    exact Bool.false_ne_true ht
  · rcases Nat.eq_or_lt_of_le h with rfl | h
    · exact hne rfl
    · have hf := hq'.2 p (occ_lt_length hp hq.1) h
      have ht := hq.1
      rw [hf] at ht
      exact Bool.false_ne_true ht

/-- The number of scanned indices equals the number of occurrences. -/
theorem scanIndices_length_eq_numOccs {pat s : List Char} (hp : pat ≠ []) :
    (scanIndices pat s).length = numOccs pat s := by
  unfold numOccs
  rw [List.countP_eq_length_filter]
  have hnd1 : (scanIndices pat s).Nodup :=
    (scanIndices_pairwise pat s).imp Nat.ne_of_lt
  have hnd2 : ((List.range s.length).filter (fun i => occ pat s i)).Nodup :=
    (List.filter_sublist _).nodup (List.nodup_range _)
  have hperm : List.Perm (scanIndices pat s)
      ((List.range s.length).filter (fun i => occ pat s i)) := by
    rw [List.perm_ext_iff_of_nodup hnd1 hnd2]
    intro i
    rw [scanIndices_mem hp, List.mem_filter, List.mem_range]
    constructor
    · intro ho
      exact ⟨occ_lt_length hp ho, ho⟩
    · intro ⟨_, ho⟩
      exact ho
  exact hperm.length_eq

/-! ### Branch lemmas for `run` -/

theorem sub_ne_nil : (sub : List Char) ≠ [] := by decide

theorem closingTag_ne_nil : (closingTag : List Char) ≠ [] := by decide

theorem run_of_le_one {text : List Char}
    (h : (scanIndices sub text).length ≤ 1) :
    run text = ⟨scanIndices sub text, RunResult.nothingToRemove⟩ := by
  unfold run
  rw [if_pos h]

theorem run_of_none {text : List Char}
    (h1 : ¬(scanIndices sub text).length ≤ 1)
    (h2 : pyFind closingTag text ((scanIndices sub text).getLastD 0) = none) :
    run text = ⟨scanIndices sub text, RunResult.endNotFound⟩ := by
  unfold run
  rw [if_neg h1]
  dsimp only
  rw [h2]

theorem run_of_some {text : List Char} {c : Nat}
    (h1 : ¬(scanIndices sub text).length ≤ 1)
    (h2 : pyFind closingTag text ((scanIndices sub text).getLastD 0) = some c) :
    run text = ⟨scanIndices sub text,
      RunResult.ok
        (text.take (((rfindNl text ((scanIndices sub text).getLastD 0)).map
              (fun i => i + 1)).getD 0) ++
          text.drop ((pyFind ['\n'] text c).getD text.length))
        (((rfindNl text ((scanIndices sub text).getLastD 0)).map
            (fun i => i + 1)).getD 0)
        ((pyFind ['\n'] text c).getD text.length)⟩ := by
  unfold run
  rw [if_neg h1]
  dsimp only
  rw [h2]

/-- Both abort paths leave the file content untouched; this is the shared
content of claims about the "nothing to remove" outcome. -/
theorem run_nothing_of_le_one {text : List Char} (h : numOccs sub text ≤ 1) :
    (run text).result = RunResult.nothingToRemove ∧ finalContent text = text := by
  have hlen : (scanIndices sub text).length ≤ 1 := by
    rw [scanIndices_length_eq_numOccs sub_ne_nil]
    exact h
  have hr := run_of_le_one hlen
  refine ⟨by rw [hr], ?_⟩
  unfold finalContent
  rw [hr]

/-- Characterization of a successful run: the produced offsets are the start
of the line of the last marker occurrence and the end of the line of the
first closing tag after it, and the new text is the prefix-suffix splice. -/
theorem run_ok_spec {text nt : List Char} {ls e : Nat}
    (h : (run text).result = RunResult.ok nt ls e) :
    ∃ p c, lastOccAt sub text p ∧ lineStartOfAt text p ls ∧
      firstAtFrom closingTag text p c ∧ lineEndFrom text c e ∧
      nt = text.take ls ++ text.drop e ∧
      ls ≤ p ∧ p < c ∧ c ≤ e ∧ e ≤ text.length ∧ 2 ≤ numOccs sub text := by
  by_cases h1 : (scanIndices sub text).length ≤ 1
  · rw [run_of_le_one h1] at h
    exact absurd h (by simp)
  cases h2 : pyFind closingTag text ((scanIndices sub text).getLastD 0) with
  | none =>
    rw [run_of_none h1 h2] at h
    exact absurd h (by simp)
  | some c =>
    rw [run_of_some h1 h2] at h
    have h' := h.symm
    obtain ⟨hnt, hls, he⟩ := RunResult.ok.inj h'
    subst hnt
    subst hls
    subst he
    have hne : scanIndices sub text ≠ [] := by
      intro hnil
      rw [hnil] at h1
      simp at h1
    have hlast := scanIndices_getLastD_lastOcc sub_ne_nil hne
    obtain ⟨hfirst, hcl⟩ := pyFind_eq_some h2
    have hlstart := lineStart_spec text ((scanIndices sub text).getLastD 0)
    have hpc : (scanIndices sub text).getLastD 0 < c := by
      rcases Nat.eq_or_lt_of_le hfirst.1 with heq | hlt
      · exfalso
        have hip : text[(scanIndices sub text).getLastD 0]? = sub[0]? :=
          @occ_getElem? sub text ((scanIndices sub text).getLastD 0) hlast.1 0
            (by decide)
        have hic : text[c]? = closingTag[0]? :=
          @occ_getElem? closingTag text c hfirst.2.1 0 (by decide)
        rw [← heq, hip] at hic
        exact absurd hic (by decide)
      · exact hlt
    have hend : lineEndFrom text c ((pyFind ['\n'] text c).getD text.length) := by
      cases hnl : pyFind ['\n'] text c with
      | none =>
        simp only [Option.getD_none]
        refine Or.inr ⟨rfl, fun k _ hk2 => ?_⟩
        have hz := pyFind_eq_none (by decide) hnl k hk2
        intro hcontra
        rw [occ_singleton.mpr hcontra] at hz
        simp at hz
      | some e' =>
        simp only [Option.getD_some]
        obtain ⟨⟨hce, hocc, hmin⟩, _⟩ := pyFind_eq_some hnl
        refine Or.inl ⟨hce, occ_singleton.mp hocc, fun k hk1 hk2 => ?_⟩
        have hz := hmin k hk1 hk2
        intro hcontra
        rw [occ_singleton.mpr hcontra] at hz
        simp at hz
    have hce : c ≤ (pyFind ['\n'] text c).getD text.length := by
      cases hnl : pyFind ['\n'] text c with
      | none =>
        simp only [Option.getD_none]
        omega
      | some e' =>
        simp only [Option.getD_some]
        obtain ⟨⟨hce', _, _⟩, _⟩ := pyFind_eq_some hnl
        exact hce'
    have hel : (pyFind ['\n'] text c).getD text.length ≤ text.length := by
      cases hnl : pyFind ['\n'] text c with
      | none =>
        simp only [Option.getD_none]
        omega
      | some e' =>
        simp only [Option.getD_some]
        obtain ⟨_, hel'⟩ := pyFind_eq_some hnl
        exact hel'
    refine ⟨(scanIndices sub text).getLastD 0, c, hlast, hlstart, hfirst, hend,
      rfl, hlstart.1, hpc, hce, hel, ?_⟩
    rw [← scanIndices_length_eq_numOccs sub_ne_nil]
    omega

/-- With at least two marker occurrences and a closing tag at or after the
last one, the run reaches the success path. -/
theorem run_succeeds {text : List Char} (h2 : 2 ≤ numOccs sub text)
    {p j : Nat} (hp : lastOccAt sub text p)
    (hj : p ≤ j) (hocc : occ closingTag text j = true) :
    ∃ nt ls e, (run text).result = RunResult.ok nt ls e := by
  have hlen : ¬(scanIndices sub text).length ≤ 1 := by
    rw [scanIndices_length_eq_numOccs sub_ne_nil]
    omega
  have hne : scanIndices sub text ≠ [] := by
    intro hnil
    rw [hnil] at hlen
    simp at hlen
  have hlast := scanIndices_getLastD_lastOcc sub_ne_nil hne
  have hpeq : (scanIndices sub text).getLastD 0 = p :=
    lastOccAt_unique sub_ne_nil hlast hp
  have hj' : (scanIndices sub text).getLastD 0 ≤ j := by
    rw [hpeq]
    exact hj
  obtain ⟨c, hc, _⟩ := pyFind_some_of_occ closingTag_ne_nil hocc hj'
  refine ⟨text.take (((rfindNl text ((scanIndices sub text).getLastD 0)).map
        (fun i => i + 1)).getD 0) ++
      text.drop ((pyFind ['\n'] text c).getD text.length),
    ((rfindNl text ((scanIndices sub text).getLastD 0)).map
        (fun i => i + 1)).getD 0,
    (pyFind ['\n'] text c).getD text.length, ?_⟩
  rw [run_of_some hlen hc]

/-! ### Occurrences across the splice -/

theorem drop_append_ge {α : Type} {l₁ l₂ : List α} {i : Nat}
    (h : l₁.length ≤ i) : (l₁ ++ l₂).drop i = l₂.drop (i - l₁.length) := by
  have h2 : i = l₁.length + (i - l₁.length) := by omega
  rw [h2, List.drop_append]
  congr 1
  omega

/-- An occurrence entirely inside the kept front part of the splice is an
occurrence of the original text. -/
theorem occ_splice_left {pat s : List Char} {ls e i : Nat}
    (hls : ls ≤ s.length) (him : i + pat.length ≤ ls) :
    occ pat (s.take ls ++ s.drop e) i = occ pat s i := by
  unfold occ
  have h1 : (s.take ls).length = ls := by simp [hls]
  have h2 : (s.take ls ++ s.drop e).drop i = (s.take ls).drop i ++ s.drop e :=
    List.drop_append_of_le_length (by omega)
  rw [h2]
  have h3 : ((s.take ls).drop i).length = ls - i := by
    simp [hls]
  rw [List.take_append_of_le_length (by rw [h3]; omega)]
  rw [List.drop_take, List.take_take]
  have h4 : min pat.length (ls - i) = pat.length := by omega
  rw [h4]

/-- An occurrence inside the kept tail of the splice is an occurrence of the
original text, shifted across the deleted span. -/
theorem occ_splice_right {pat s : List Char} {ls e i : Nat}
    (hls : ls ≤ s.length) (hi : ls ≤ i) :
    occ pat (s.take ls ++ s.drop e) i = occ pat s (e + (i - ls)) := by
  have h1 : (s.take ls).length = ls := by simp [hls]
  unfold occ
  rw [drop_append_ge (by rw [h1]; omega), h1, List.drop_drop]

/-- If a newline sits inside the window of an occurrence, the pattern
contains a newline. -/
theorem occ_newline_in {pat t : List Char} {i q : Nat}
    (hocc : occ pat t i = true) (hq1 : i ≤ q) (hq2 : q < i + pat.length)
    (hnl : t[q]? = some '\n') : '\n' ∈ pat := by
  have hk : q - i < pat.length := by omega
  have hpq := occ_getElem? hocc hk
  have hiq : i + (q - i) = q := by omega
  rw [hiq, hnl] at hpq
  obtain ⟨hlt, hget⟩ := List.getElem?_eq_some.mp hpq.symm
  exact hget ▸ List.getElem_mem hlt

/-- Pointwise characterization of marker occurrences in the spliced output:
exactly the original occurrences entirely before the kept line start. -/
theorem occ_splice_eq {s : List Char} {p e ls : Nat}
    (hlast : lastOccAt sub s p) (hlstart : lineStartOfAt s p ls)
    (hpe : p < e) :
    ∀ i, occ sub (s.take ls ++ s.drop e) i =
      (occ sub s i && decide (i + sub.length ≤ ls)) := by
  intro i
  have hlsp : ls ≤ p := hlstart.1
  have hplen : p < s.length := occ_lt_length sub_ne_nil hlast.1
  have hls_len : ls ≤ s.length := by omega
  have hsubpos : 0 < sub.length := by decide
  rcases Nat.lt_or_ge i ls with hi | hi
  · rcases le_or_lt (i + sub.length) ls with him | him
    · rw [occ_splice_left hls_len him]
      simp [him]
    · have hd : decide (i + sub.length ≤ ls) = false := by
        simp only [decide_eq_false_iff_not]
        omega
      rw [hd, Bool.and_false]
      by_cases ho : occ sub (s.take ls ++ s.drop e) i = true
      · exfalso
        have hq1 : i ≤ ls - 1 := by omega
        have hq2 : ls - 1 < i + sub.length := by omega
        have hnl1 : s[ls - 1]? = some '\n' := by
          rcases hlstart.2.1 with h0 | hnl
          · omega
          · exact hnl
        have hnl2 : (s.take ls ++ s.drop e)[ls - 1]? = some '\n' := by
          rw [List.getElem?_append_left (by simp [hls_len]; omega)]
          rw [List.getElem?_take]
          simp only [if_pos (show ls - 1 < ls by omega)]
          exact hnl1
        have hmem := occ_newline_in ho hq1 hq2 hnl2
        exact absurd hmem (by decide)
      · exact Bool.eq_false_iff.mpr ho
  · rw [occ_splice_right hls_len hi]
    have hd : decide (i + sub.length ≤ ls) = false := by
      simp only [decide_eq_false_iff_not]
      omega
    rw [hd, Bool.and_false]
    by_cases ho : occ sub s (e + (i - ls)) = true
    · exfalso
      have hlt : e + (i - ls) < s.length := occ_lt_length sub_ne_nil ho
      have hz := hlast.2 (e + (i - ls)) hlt (by omega)
      rw [hz] at ho
      exact Bool.false_ne_true ho
    · exact Bool.eq_false_iff.mpr ho

/-! ### Counting lemmas -/

theorem countP_range_eq_of_false_above {p : Nat → Bool} {n₁ n₂ : Nat}
    (h : n₁ ≤ n₂) (hz : ∀ i, n₁ ≤ i → p i = false) :
    (List.range n₂).countP p = (List.range n₁).countP p := by
  obtain ⟨d, rfl⟩ : ∃ d, n₂ = n₁ + d := ⟨n₂ - n₁, by omega⟩
  rw [List.range_add, List.countP_append]
  have hzero : ((List.range d).map (n₁ + ·)).countP p = 0 := by
    rw [List.countP_eq_zero]
    intro a ha
    obtain ⟨b, _, rfl⟩ := List.mem_map.mp ha
    simp [hz (n₁ + b) (by omega)]
  rw [hzero]
  omega

theorem countP_range_lt_of_witness {p q : Nat → Bool} {n a : Nat} (ha : a < n)
    (hpq : ∀ i, p i = true → q i = true) (hqa : q a = true)
    (hpa : p a = false) :
    (List.range n).countP p < (List.range n).countP q := by
  have h1 : List.range n = (List.range a ++ [a]) ++
      (List.range (n - (a + 1))).map ((a + 1) + ·) := by
    rw [← List.range_succ, ← List.range_add]
    congr 1
    omega
  rw [h1, List.countP_append, List.countP_append,
    List.countP_append, List.countP_append]
  have hpa' : List.countP p [a] = 0 := by simp [List.countP_cons, hpa]
  have hqa' : List.countP q [a] = 1 := by simp [List.countP_cons, hqa]
  have m1 : (List.range a).countP p ≤ (List.range a).countP q :=
    List.countP_mono_left (fun x _ => hpq x)
  have m2 : ((List.range (n - (a + 1))).map ((a + 1) + ·)).countP p ≤
      ((List.range (n - (a + 1))).map ((a + 1) + ·)).countP q :=
    List.countP_mono_left (fun x _ => hpq x)
  omega

/-- The first occurrence at or after a given start is unique. -/
theorem firstAtFrom_unique {pat s : List Char} {start c c' : Nat}
    (h : firstAtFrom pat s start c) (h' : firstAtFrom pat s start c') :
    c = c' := by
  by_contra hne
  rcases Nat.lt_or_ge c c' with hlt | hge
  · have hz := h'.2.2 c hlt h.1
    have ht := h.2.1
    rw [hz] at ht
    exact Bool.false_ne_true ht
  · rcases Nat.eq_or_lt_of_le hge with heq | hlt
    · exact hne heq.symm
    · have hz := h.2.2 c' hlt h'.1
      have ht := h'.2.1
      rw [hz] at ht
      exact Bool.false_ne_true ht

/-! ### The claims -/

/-- **C1, counterexample.** The claim "for every input containing the marker
at least twice, the run succeeds" is false as stated: two adjacent markers
with no closing tag make the run abort with "end not found". -/
theorem c1_counterexample :
    2 ≤ numOccs sub t0 ∧ (run t0).result = RunResult.endNotFound ∧
      ∀ nt ls e, (run t0).result ≠ RunResult.ok nt ls e := by
  have hres : (run t0).result = RunResult.endNotFound := by decide
  refine ⟨by decide, hres, fun nt ls e h => ?_⟩
  rw [hres] at h
  exact RunResult.noConfusion h

/-- **C1 (amended).** For every input containing the marker at least twice
*and a closing-tag occurrence at or after the last marker occurrence*, the
run succeeds and the written content equals the original with exactly the
span from the start of the line containing the last marker occurrence
through the end of the line containing the first closing-tag occurrence
after it removed, and no other characters altered. -/
theorem c1_removes_span (text : List Char) (h2 : 2 ≤ numOccs sub text)
    (p : Nat) (hp : lastOccAt sub text p)
    (hc : ∃ j, p ≤ j ∧ occ closingTag text j = true) :
    ∃ ls e, (run text).result =
        RunResult.ok (text.take ls ++ text.drop e) ls e ∧
      lineStartOfAt text p ls ∧
      ∃ c, firstAtFrom closingTag text p c ∧ lineEndFrom text c e := by
  obtain ⟨j, hj, hocc⟩ := hc
  obtain ⟨nt, ls, e, hres⟩ := run_succeeds h2 hp hj hocc
  obtain ⟨p', c, hlast', hlstart, hfirst, hend, hnt, _, _, _, _, _⟩ :=
    run_ok_spec hres
  have hpp : p' = p := lastOccAt_unique sub_ne_nil hlast' hp
  subst hpp
  subst hnt
  exact ⟨ls, e, hres, hlstart, c, hfirst, hend⟩

/-- Witness for C1: a concrete successful run. -/
theorem c1_removes_span_witness :
    ∃ ls e, (run w1).result =
        RunResult.ok (w1.take ls ++ w1.drop e) ls e ∧
      lineStartOfAt w1 25 ls ∧
      ∃ c, firstAtFrom closingTag w1 25 c ∧ lineEndFrom w1 c e :=
  c1_removes_span w1 (by decide) 25 (by decide) ⟨49, by decide⟩

/-- **C2.** With the marker occurring at most once, the run aborts with
"nothing to remove" and the file content is unchanged (no write occurs). -/
theorem c2_nothing_to_remove (text : List Char) (h : numOccs sub text ≤ 1) :
    (run text).result = RunResult.nothingToRemove ∧
      finalContent text = text :=
  run_nothing_of_le_one h

/-- Witness for C2: a marker-free content. -/
theorem c2_nothing_to_remove_witness :
    (run t2).result = RunResult.nothingToRemove ∧ finalContent t2 = t2 :=
  c2_nothing_to_remove t2 (by decide)

/-- **C3.** With the marker occurring at least twice but no closing tag at
or after the last occurrence, the run aborts with "end not found" and the
file content is unchanged (no write occurs). -/
theorem c3_end_not_found (text : List Char) (h2 : 2 ≤ numOccs sub text)
    (p : Nat) (hp : lastOccAt sub text p)
    (hnc : ∀ j, j < text.length → p ≤ j → occ closingTag text j = false) :
    (run text).result = RunResult.endNotFound ∧ finalContent text = text := by
  have hlen : ¬(scanIndices sub text).length ≤ 1 := by
    rw [scanIndices_length_eq_numOccs sub_ne_nil]
    omega
  have hne : scanIndices sub text ≠ [] := by
    intro hnil
    rw [hnil] at hlen
    simp at hlen
  have hlast := scanIndices_getLastD_lastOcc sub_ne_nil hne
  have hpeq : (scanIndices sub text).getLastD 0 = p :=
    lastOccAt_unique sub_ne_nil hlast hp
  have hnone : pyFind closingTag text ((scanIndices sub text).getLastD 0) = none := by
    cases hf : pyFind closingTag text ((scanIndices sub text).getLastD 0) with
    | none => rfl
    | some c =>
      exfalso
      obtain ⟨⟨hpc, hocc, _⟩, _⟩ := pyFind_eq_some hf
      have hclt : c < text.length := occ_lt_length closingTag_ne_nil hocc
      have hz := hnc c hclt (by omega)
      rw [hz] at hocc
      exact Bool.false_ne_true hocc
  have hr := run_of_none hlen hnone
  refine ⟨by rw [hr], ?_⟩
  unfold finalContent
  rw [hr]

/-- Witness for C3: two adjacent markers, no closing tag. -/
theorem c3_end_not_found_witness :
    (run t0).result = RunResult.endNotFound ∧ finalContent t0 = t0 :=
  c3_end_not_found t0 (by decide) 24 (by decide) (by decide)

/-- **C4.** If a run succeeds and the marker occurs at most once in its
output, a second run on that output aborts with "nothing to remove" and
leaves it unchanged: the content is stable under further runs. -/
theorem c4_idempotent (text nt : List Char) (ls e : Nat)
    (h : (run text).result = RunResult.ok nt ls e)
    (h1 : numOccs sub nt ≤ 1) :
    (run nt).result = RunResult.nothingToRemove ∧ finalContent nt = nt :=
  run_nothing_of_le_one h1

/-- Witness for C4: rerunning on the output of the successful `w1` run. -/
theorem c4_idempotent_witness :
    (run w1out).result = RunResult.nothingToRemove ∧
      finalContent w1out = w1out :=
  c4_idempotent w1 w1out 25 59 (by decide) (by decide)

/-- **C5.** Every successful run writes a prefix of the input concatenated
with a suffix of the input: `new_text = text.take ls ++ text.drop e` with
`ls ≤ e ≤ text.length`. -/
theorem c5_splice_shape (text nt : List Char) (ls e : Nat)
    (h : (run text).result = RunResult.ok nt ls e) :
    nt = text.take ls ++ text.drop e ∧ ls ≤ e ∧ e ≤ text.length := by
  obtain ⟨p, c, _, _, _, _, hnt, hlsp, hpc, hce, hel, _⟩ := run_ok_spec h
  exact ⟨hnt, by omega, hel⟩

/-- Witness for C5: the concrete `w1` run. -/
theorem c5_splice_shape_witness :
    w1out = w1.take 25 ++ w1.drop 59 ∧ 25 ≤ 59 ∧ 59 ≤ w1.length :=
  c5_splice_shape w1 w1out 25 59 (by decide)

/-- **C6.** On every input the scan produces exactly the start positions of
all marker occurrences, in strictly increasing order, and this list is part
of the run's standard output whatever the outcome (it is printed before any
abort or write). -/
theorem c6_scan_output (text : List Char) :
    (run text).stdoutIndices = scanIndices sub text ∧
      (run text).stdoutIndices.Pairwise (· < ·) ∧
      ∀ i, i ∈ (run text).stdoutIndices ↔ occ sub text i = true := by
  have hstdout : (run text).stdoutIndices = scanIndices sub text := by
    by_cases h1 : (scanIndices sub text).length ≤ 1
    · rw [run_of_le_one h1]
    · cases h2 : pyFind closingTag text ((scanIndices sub text).getLastD 0) with
      | none => rw [run_of_none h1 h2]
      | some c => rw [run_of_some h1 h2]
  refine ⟨hstdout, ?_, ?_⟩
  · rw [hstdout]
    exact scanIndices_pairwise sub text
  · intro i
    rw [hstdout]
    exact scanIndices_mem sub_ne_nil

/-- **C7.** When a closing tag follows the last marker but no newline occurs
at or after that closing tag, the deletion span runs to the end of the
file: the output is exactly `text.take ls`. -/
theorem c7_no_newline_to_eof (text : List Char) (h2 : 2 ≤ numOccs sub text)
    (p : Nat) (hp : lastOccAt sub text p)
    (c : Nat) (hc : firstAtFrom closingTag text p c)
    (hnl : ∀ k, k < text.length → c ≤ k → text[k]? ≠ some '\n') :
    ∃ ls, (run text).result = RunResult.ok (text.take ls) ls text.length ∧
      lineStartOfAt text p ls := by
  obtain ⟨nt, ls, e, hres⟩ := run_succeeds h2 hp hc.1 hc.2.1
  obtain ⟨p', c', hlast', hlstart, hfirst, hend, hnt, _, _, _, hel, _⟩ :=
    run_ok_spec hres
  have hpp : p' = p := lastOccAt_unique sub_ne_nil hlast' hp
  subst hpp
  have hcc : c' = c := firstAtFrom_unique hfirst hc
  subst hcc
  have he : e = text.length := by
    rcases hend with ⟨hce', hnl', _⟩ | ⟨heq, _⟩
    · exfalso
      have helt : e < text.length := (List.getElem?_eq_some.mp hnl').1
      exact hnl e helt hce' hnl'
    · exact heq
  subst he
  have hnt' : nt = text.take ls := by
    rw [hnt, List.drop_length, List.append_nil]
  rw [hnt'] at hres
  exact ⟨ls, hres, hlstart⟩

/-- Witness for C7: `w1` has no newline after its closing tag. -/
theorem c7_no_newline_to_eof_witness :
    ∃ ls, (run w1).result = RunResult.ok (w1.take ls) ls w1.length ∧
      lineStartOfAt w1 25 ls :=
  c7_no_newline_to_eof w1 (by decide) 25 (by decide) 49 (by decide) (by decide)

/-- **C8.** Every successful run strictly decreases the number of marker
occurrences: the deleted span contains the last occurrence and the splice
creates no new one (the kept prefix is empty or ends with a newline and the
marker contains no newline). -/
theorem c8_occurrences_decrease (text nt : List Char) (ls e : Nat)
    (h : (run text).result = RunResult.ok nt ls e) :
    numOccs sub nt < numOccs sub text := by
  obtain ⟨p, c, hlast, hlstart, hfirst, hend, hnt, hlsp, hpc, hce, hel, _⟩ :=
    run_ok_spec h
  subst hnt
  have hpe : p < e := by omega
  have hchar := occ_splice_eq hlast hlstart hpe
  have hplen : p < text.length := occ_lt_length sub_ne_nil hlast.1
  have hls_len : ls ≤ text.length := by omega
  have hsubpos : 0 < sub.length := by decide
  have hlen_out : (text.take ls ++ text.drop e).length =
      ls + (text.length - e) := by
    rw [List.length_append, List.length_take, List.length_drop,
      Nat.min_eq_left hls_len]
  unfold numOccs
  have hfun : (fun i => occ sub (text.take ls ++ text.drop e) i) =
      (fun i => occ sub text i && decide (i + sub.length ≤ ls)) :=
    funext hchar
  rw [hfun, hlen_out]
  have hzero : ∀ i, ls ≤ i →
      (occ sub text i && decide (i + sub.length ≤ ls)) = false := by
    intro i hi
    have hd : decide (i + sub.length ≤ ls) = false := by
      simp only [decide_eq_false_iff_not]
      omega
    rw [hd, Bool.and_false]
  rw [countP_range_eq_of_false_above
    (show ls ≤ ls + (text.length - e) by omega) hzero]
  rw [← countP_range_eq_of_false_above
    (show ls ≤ text.length by omega) hzero]
  apply countP_range_lt_of_witness hplen
  · intro i hi
    exact (Bool.and_eq_true_iff.mp hi).1
  · exact hlast.1
  · have hd : decide (p + sub.length ≤ ls) = false := by
      simp only [decide_eq_false_iff_not]
      omega
    rw [hd, Bool.and_false]

/-- Witness for C8: the `w1` run drops from two occurrences to one. -/
theorem c8_occurrences_decrease_witness :
    numOccs sub w1out < numOccs sub w1 :=
  c8_occurrences_decrease w1 w1out 25 59 (by decide)

/-- **C9.** Every successful run deletes a non-empty span around the last
marker occurrence (`ls ≤ p < e`), so the output is strictly shorter than
the input. -/
theorem c9_span_nonempty (text nt : List Char) (ls e : Nat)
    (h : (run text).result = RunResult.ok nt ls e) :
    ∃ p, lastOccAt sub text p ∧ ls ≤ p ∧ p < e ∧
      nt.length < text.length := by
  obtain ⟨p, c, hlast, hlstart, hfirst, hend, hnt, hlsp, hpc, hce, hel, _⟩ :=
    run_ok_spec h
  refine ⟨p, hlast, hlsp, by omega, ?_⟩
  subst hnt
  have hplen : p < text.length := occ_lt_length sub_ne_nil hlast.1
  have hls_len : ls ≤ text.length := by omega
  have hlen_out : (text.take ls ++ text.drop e).length =
      ls + (text.length - e) := by
    rw [List.length_append, List.length_take, List.length_drop,
      Nat.min_eq_left hls_len]
  omega

/-- Witness for C9: the `w1` run. -/
theorem c9_span_nonempty_witness :
    ∃ p, lastOccAt sub w1 p ∧ 25 ≤ p ∧ p < 59 ∧
      w1out.length < w1.length :=
  c9_span_nonempty w1 w1out 25 59 (by decide)

/-- **C10.** The scanning loop terminates on every input: its fuel-based
embedding is independent of the fuel once the fuel covers the remaining
search positions (each iteration advances the start by at least one,
bounded by the content length). -/
theorem c10_scan_terminates (pat s : List Char) (fuel start : Nat)
    (h : s.length + 1 ≤ fuel + start) :
    scanAux pat s fuel start = scanAux pat s (s.length + 1 - start) start :=
  scanAux_fuel_congr h (by omega)

/-- Witness for C10: a large fuel agrees with the canonical fuel. -/
theorem c10_scan_terminates_witness :
    scanAux sub w1 100 0 = scanAux sub w1 (w1.length + 1 - 0) 0 :=
  c10_scan_terminates sub w1 100 0 (by decide)

end RmBlock
